import Mathlib

/-!
Verification of the storey-based IFC splitter (`split_ifc_by_storey.py`)
from the babylon-bim-viewer repository.

The development shallowly embeds the splitter's core: the dependency
closure engine (`collect_dependencies`, source lines 60-84), the
explicit-root planner (lines 180-208), the spatial-hierarchy resolver
(lines 141-159), the per-partition copy loop (lines 229-243), and the
orchestrator's success/exit-code logic (lines 87-293).

Modelling choices, recorded once here:
* An entity is its integer id (`eid`, Python `entity.id()`), a type
  membership test (`is_a`, Python `entity.is_a(tag)`), a flag `infoOk`
  recording whether `entity.get_info()` succeeds (the bare `except: pass`
  at lines 83-84 swallows any exception raised while reading attributes;
  `get_info` materialises the whole attribute dictionary before the loop
  over its values runs, so a failure yields no values at all), and the
  ordered list of attribute values.
* Attribute values are scalars, entity references, or nested lists,
  mirroring what `entity.get_info().values()` yields.  A reference is
  stored as an id and resolved through the store; an unresolvable id
  behaves like Python's `hasattr(value, 'id')` guard failing, i.e. the
  value is skipped.
* In the source, the root-boundary test `value.is_a("IfcRoot")` is done
  at each reference before recursing.  The embedding precomputes, for a
  visited entity, the list of ids the Python code would recurse into
  (`succs`); the tests involved (`hasattr`, `is_a`) are pure and do not
  read the visited set, so this is behaviour-preserving.
* Python's recursion carries no fuel; it terminates because the visited
  set grows.  The embedding adds a fuel parameter and its theorems show
  that any fuel exceeding the number of entity ids in the store makes
  the fuel bound unreachable.
-/

namespace IfcSplit

/-- One attribute value of `entity.get_info().values()`: a non-entity
scalar, an entity reference, or a (possibly nested) list. -/
inductive AttrValue where
  | scalar : AttrValue
  | ref : Nat → AttrValue
  | vlist : List AttrValue → AttrValue

/-- An IFC entity as seen by the splitter. -/
structure Entity where
  eid : Nat
  is_a : String → Bool
  infoOk : Bool
  attrs : List AttrValue

/-- The loaded IFC file: a list of entities (`ifc_file`). -/
abbrev Store := List Entity

/-- `ifc_file.by_id(r)`, with failure as `none`. -/
def byId (s : Store) (r : Nat) : Option Entity :=
  s.find? (fun e => e.eid == r)

/-- `entity.get_info()` under the `try` of lines 72-84: `none` models an
exception (swallowed by the bare `except`), `some` yields the values. -/
def get_info_vals (e : Entity) : Option (List AttrValue) :=
  if e.infoOk then some e.attrs else none

/-- Line 75-78: a top-level value with an `id` attribute is recursed into
when it is not an `IfcRoot`; dangling / non-entity values are skipped. -/
def refTarget (s : Store) (v : AttrValue) : List Nat :=
  match v with
  | .ref r =>
    match byId s r with
    | some re => if re.is_a "IfcRoot" then [] else [r]
    | none => []
  | _ => []

/-- Lines 75-82: a top-level value is either an entity reference or a
list whose direct items are tested; items nested deeper (a list inside a
list) fail the `hasattr(item, 'id')` test and are skipped. -/
def valueTarget (s : Store) (v : AttrValue) : List Nat :=
  match v with
  | .vlist items => items.flatMap (refTarget s)
  | v => refTarget s v

/-- The ids `collect_dependencies` recurses into from entity `e`
(lines 72-84); empty when `get_info` raises. -/
def succs (s : Store) (e : Entity) : List Nat :=
  match get_info_vals e with
  | none => []
  | some vs => vs.flatMap (valueTarget s)

/-- `collect_dependencies(entity, visited, ifc_file)` (lines 60-84).
The argument is the id of the entity to visit; `byId` failing models the
`entity is None or not hasattr(entity, 'id')` guard at line 62.  The
`for value in info.values()` loop of lines 74-82 is the fold over the
recursion targets `succs s e`. -/
def collect_dependencies (s : Store) : Nat → Nat → List Nat → List Nat
  | fuel, r, visited =>
    match byId s r with
    | none => visited
    | some e =>
      if e.eid ∈ visited then visited
      else
        match fuel with
        | 0 => visited
        | fuel' + 1 =>
          (succs s e).foldl (fun v r' => collect_dependencies s fuel' r' v)
            (e.eid :: visited)

/-- The loop of lines 74-82 as a standalone function: visit each
recursion target in turn, threading the visited set. -/
def collect_list (s : Store) (fuel : Nat) (rs : List Nat)
    (visited : List Nat) : List Nat :=
  rs.foldl (fun v r => collect_dependencies s fuel r v) visited

/-- Lines 215-218 with a general starting set: iterate the seeds,
accumulating one shared visited set. -/
def collect_closure_from (s : Store) (fuel : Nat) (seeds : List Nat)
    (visited : List Nat) : List Nat :=
  seeds.foldl (fun visited r => collect_dependencies s fuel r visited) visited

/-- Lines 214-218: `non_root_deps = set(); for entity_id in
entities_to_copy: collect_dependencies(ifc_file.by_id(entity_id),
non_root_deps, ifc_file)`. -/
def collect_closure (s : Store) (fuel : Nat) (seeds : List Nat) : List Nat :=
  collect_closure_from s fuel seeds []

/-- The set of entity ids present in the store. -/
def idsF (s : Store) : Finset Nat :=
  (s.map Entity.eid).toFinset

/-- How many store ids are not yet visited; the fuel bookkeeping measure. -/
def unseen (s : Store) (v : List Nat) : Nat :=
  (idsF s \ v.toFinset).card

/-- One traversal edge: `a` resolves to an entity whose attribute values
make the engine recurse into `b`. -/
def stepRel (s : Store) (a b : Nat) : Prop :=
  ∃ ea, byId s a = some ea ∧ b ∈ succs s ea

/-- `x` is reachable from the resolvable id `a` along traversal edges. -/
def Reaches (s : Store) (a x : Nat) : Prop :=
  (byId s a).isSome ∧ Relation.ReflTransGen (stepRel s) a x

/-! ### Attribute-order permutation (for the determinism claim)

Two entities are attribute-permuted when they agree on everything the
engine reads except the order of the top-level attribute values. -/

/-- Same id, same type tests, same `get_info` outcome, permuted values. -/
def EntityPerm (e e' : Entity) : Prop :=
  e.eid = e'.eid ∧ e.is_a = e'.is_a ∧ e.infoOk = e'.infoOk ∧
    e.attrs.Perm e'.attrs

/-- Two stores differing only in attribute-visitation order. -/
def StorePerm (s s' : Store) : Prop :=
  List.Forall₂ EntityPerm s s'

/-! ### PartitionPlanner: the explicit-root set (lines 180-208) -/

/-- The pre-built lookup dictionaries of `build_relationship_maps`
(lines 13-57), abstracted by the ids they answer with: `element_to_type`
is the dict lookup guarded by `in` (absent = `none`), the two defaultdict
lookups answer a possibly-empty id list. -/
structure Maps where
  element_to_type : Nat → Option Nat
  element_to_materials : Nat → List Nat
  element_to_psets : Nat → List Nat

/-- A Python `set` of ids, modelled as a duplicate-free list;
`set.add` is `List.insert` (membership-checked prepend). -/
def set_add (x : Nat) (acc : List Nat) : List Nat :=
  acc.insert x

/-- `entities_to_copy.add(x.id())` for an optional core entity
(lines 183-188). -/
def opt_insert (o : Option Nat) (acc : List Nat) : List Nat :=
  match o with
  | some x => set_add x acc
  | none => acc

/-- Lines 192-208: one iteration of `for element in elements`. -/
def add_element_roots (m : Maps) (acc : List Nat) (el : Nat) : List Nat :=
  let acc := set_add el acc
  let acc :=
    match m.element_to_type el with
    | some t => set_add t acc
    | none => acc
  let acc := (m.element_to_materials el).foldl (fun a mat => set_add mat a) acc
  (m.element_to_psets el).foldl (fun a p => set_add p a) acc

/-- Lines 180-208: `entities_to_copy`, the explicit-root set of one
storey's partition. -/
def entities_to_copy (project site building : Option Nat) (storey : Nat)
    (elements : List Nat) (m : Maps) : List Nat :=
  let acc : List Nat := []
  let acc := opt_insert project acc
  let acc := opt_insert site acc
  let acc := opt_insert building acc
  let acc := set_add storey acc
  elements.foldl (add_element_roots m) acc

/-- The resolved ancestor chain above the storey level, as an id set. -/
def ancestor_chain (project site building : Option Nat) : List Nat :=
  opt_insert project (opt_insert site (opt_insert building []))

/-- The auxiliary roots contributed by a member list: types, materials
and property sets of its elements (lines 195-208). -/
def aux_roots (m : Maps) (elements : List Nat) : List Nat :=
  elements.flatMap (fun el =>
    (m.element_to_type el).toList ++ m.element_to_materials el ++
      m.element_to_psets el)

/-! ### SpatialHierarchyResolver (lines 141-159) -/

/-- One `IfcRelAggregates` record, reduced to what the resolver reads:
the id of `RelatingObject` and the `RelatedObjects` list. -/
structure AggRel where
  RelatingObject : Nat
  RelatedObjects : List Entity

/-- Lines 145-159: both resolver loops have the same shape, here
parameterised by the parent id and the sought type tag.  The inner
`break` stops at the first matching child of one relation; the outer
loop keeps running over the remaining relations, overwriting the
variable whenever a later relation also matches. -/
def resolve_child (rels : List AggRel) (parent : Nat) (marker : String) :
    Option Entity :=
  rels.foldl
    (fun acc rel =>
      if rel.RelatingObject == parent then
        match rel.RelatedObjects.find? (fun o => o.is_a marker) with
        | some o => some o
        | none => acc
      else acc)
    none

/-! ### SubgraphMaterializer (lines 226-243) -/

/-- Line 229: `all_entity_ids = entities_to_copy | non_root_deps`. -/
def all_entity_ids (E : List Nat) (deps : List Nat) : List Nat :=
  deps.foldl (fun acc i => acc.insert i) E

/-- Line 232: `sorted(all_entity_ids)`. -/
def sorted_entity_ids (E : List Nat) (deps : List Nat) : List Nat :=
  (all_entity_ids E deps).insertionSort (· ≤ ·)

/-- Lines 232-238: the copy loop.  `copyOk i` models the `try` body
(`by_id` plus `new_file.add`) succeeding for id `i`.  The result is the
sequence of ids added to the new file, in insertion order, paired with
the warnings printed; a failing entity is skipped, and its warning is
printed only when `verbose` holds. -/
def materialize (verbose : Bool) (copyOk : Nat → Bool) :
    List Nat → List Nat × List Nat
  | [] => ([], [])
  | i :: rest =>
    let out := materialize verbose copyOk rest
    if copyOk i then (i :: out.1, out.2)
    else (out.1, if verbose then i :: out.2 else out.2)

/-- The full entity-id set of one storey's output artifact:
`entities_to_copy | non_root_deps` (lines 214-229), with the closure
seeded from the explicit roots in ascending id order (the Python `for
entity_id in entities_to_copy` iterates a set; by the determinism
property the resulting set does not depend on that order). -/
def partition_output (s : Store) (fuel : Nat)
    (project site building : Option Nat) (storey : Nat)
    (elements : List Nat) (m : Maps) : List Nat :=
  let E := entities_to_copy project site building storey elements m
  all_entity_ids E (collect_closure s fuel (E.insertionSort (· ≤ ·)))

/-! ### PartitionOrchestrator: success and exit code (lines 87-293) -/

/-- The observable course of one run, as far as the return value of
`split_ifc_ultrafast` is concerned: whether `import ifcopenshell`
succeeds (lines 92-97), whether the input path exists (lines 100-102),
whether `ifcopenshell.open` succeeds (lines 115-119), and the outcome of
each storey's `try` block (lines 172-255, `True` = no exception). -/
structure RunInput where
  ifcopenshell_ok : Bool
  file_exists : Bool
  load_ok : Bool
  storey_outcomes : List Bool

/-- The return value of `split_ifc_ultrafast` (lines 87-272).  Each
fatal precondition returns `False`; `storeys == []` returns `False` at
lines 131-133; the per-storey loop catches every exception at lines
251-255 and merely `continue`s, so it cannot change the return value,
and line 272 returns `True` unconditionally afterwards. -/
def split_ifc_ultrafast (r : RunInput) : Bool :=
  if !r.ifcopenshell_ok then false
  else if !r.file_exists then false
  else if !r.load_ok then false
  else if r.storey_outcomes.isEmpty then false
  else true

/-- Lines 287-293: `sys.exit(0 if success else 1)`. -/
def main_exit_code (r : RunInput) : Nat :=
  if split_ifc_ultrafast r then 0 else 1

/-- "At least one partition succeeded", the condition the claim ties the
exit code to. -/
def any_partition_succeeded (r : RunInput) : Bool :=
  r.storey_outcomes.any (fun b => b)

/-! ### Concrete inputs used by counterexamples and witnesses -/

/-- A type test that holds for no tag: a plain non-root entity. -/
def nonRootTag : String → Bool := fun _ => false

/-- The type test of a root entity. -/
def rootTag : String → Bool := fun t => t == "IfcRoot"

/-- Store for the seed-membership counterexample: one root entity with
no attributes. -/
def storeSeed : Store := [⟨1, rootTag, true, []⟩]

/-- Store for the nested-list counterexample: entity 1 references the
non-root entity 2 only inside a list of lists. -/
def storeNested : Store :=
  [⟨1, nonRootTag, true, [.vlist [.vlist [.ref 2]]]⟩,
   ⟨2, nonRootTag, true, []⟩]

/-- A two-entity chain: 1 references 2 at top level, both non-root. -/
def storeChain : Store :=
  [⟨1, nonRootTag, true, [.ref 2, .scalar]⟩, ⟨2, nonRootTag, true, []⟩]

/-- `storeChain` with entity 1's attribute values visited in the other
order. -/
def storeChainPerm : Store :=
  [⟨1, nonRootTag, true, [.scalar, .ref 2]⟩, ⟨2, nonRootTag, true, []⟩]

/-- Store for the cross-contamination counterexample: two storeys
(ids 100, 200), their member elements (10, 20), and a material (5)
shared by both elements; no attribute references. -/
def storeShared : Store :=
  [⟨100, rootTag, true, []⟩, ⟨200, rootTag, true, []⟩,
   ⟨10, rootTag, true, []⟩, ⟨20, rootTag, true, []⟩,
   ⟨5, rootTag, true, []⟩]

/-- Relationship maps for `storeShared`: both elements share material 5. -/
def mapsShared : Maps :=
  ⟨fun _ => none,
   fun el => if el == 10 || el == 20 then [5] else [],
   fun _ => []⟩

/-- Maps for the completeness witness: element 10 has type 7, materials
[5, 6] and property set [8]. -/
def mapsWitness : Maps :=
  ⟨fun el => if el == 10 then some 7 else none,
   fun el => if el == 10 then [5, 6] else [],
   fun el => if el == 10 then [8] else []⟩

/-- Two aggregation relations under parent 1, each containing a site
(`is_a "IfcSite"`); the first carries id 10, the second id 20. -/
def siteTag : String → Bool := fun t => t == "IfcSite"

/-- First relation: project 1 aggregates site 10. -/
def relFirst : AggRel := ⟨1, [⟨10, siteTag, true, []⟩]⟩

/-- Second relation: project 1 aggregates site 20. -/
def relSecond : AggRel := ⟨1, [⟨20, siteTag, true, []⟩]⟩

/-- Store with an entity whose `get_info()` raises (`infoOk = false`):
the reference it holds is never examined. -/
def storeFail : Store :=
  [⟨1, nonRootTag, false, [.ref 2]⟩, ⟨2, nonRootTag, true, []⟩]

/-- Comparison definition (from the claim's wording turned around): the
resolution in which the *last* relation under `parent` that contains a
child of the sought type wins, each relation contributing the first
matching child of its `RelatedObjects`. -/
def last_relation_match (rels : List AggRel) (parent : Nat)
    (marker : String) : Option Entity :=
  match rels with
  | [] => none
  | rel :: rest =>
    (last_relation_match rest parent marker).or
      (if rel.RelatingObject == parent then
        rel.RelatedObjects.find? (fun o => o.is_a marker)
      else none)

/-! ## Lemmas about the closure engine -/

theorem cd_of_none {s : Store} {fuel r : Nat} {v : List Nat}
    (h : byId s r = none) : collect_dependencies s fuel r v = v := by
  rw [collect_dependencies, h]

theorem cd_of_mem {s : Store} {fuel r : Nat} {v : List Nat} {e : Entity}
    (h : byId s r = some e) (hm : e.eid ∈ v) :
    collect_dependencies s fuel r v = v := by
  rw [collect_dependencies, h]
  simp [hm]

theorem cd_zero {s : Store} {r : Nat} {v : List Nat} :
    collect_dependencies s 0 r v = v := by
  rcases h : byId s r with _ | e
  · exact cd_of_none h
  · by_cases hm : e.eid ∈ v
    · exact cd_of_mem h hm
    · rw [collect_dependencies, h]
      simp [hm]

theorem cd_succ {s : Store} {fuel r : Nat} {v : List Nat} {e : Entity}
    (h : byId s r = some e) (hm : e.eid ∉ v) :
    collect_dependencies s (fuel + 1) r v =
      collect_list s fuel (succs s e) (e.eid :: v) := by
  rw [collect_dependencies, h]
  simp [hm, collect_list]

theorem cl_nil {s : Store} {fuel : Nat} {v : List Nat} :
    collect_list s fuel [] v = v := rfl

theorem cl_cons {s : Store} {fuel r : Nat} {rs : List Nat} {v : List Nat} :
    collect_list s fuel (r :: rs) v =
      collect_list s fuel rs (collect_dependencies s fuel r v) := rfl

theorem byId_eid {s : Store} {r : Nat} {e : Entity}
    (h : byId s r = some e) : e.eid = r := by
  have := List.find?_some h
  simpa using this

theorem byId_mem_store {s : Store} {r : Nat} {e : Entity}
    (h : byId s r = some e) : e ∈ s :=
  List.mem_of_find?_eq_some h

theorem byId_mem_idsF {s : Store} {r : Nat} {e : Entity}
    (h : byId s r = some e) : r ∈ idsF s := by
  simp only [idsF, List.mem_toFinset, List.mem_map]
  exact ⟨e, byId_mem_store h, byId_eid h⟩

theorem refTarget_resolves {s : Store} {v : AttrValue} {b : Nat}
    (hb : b ∈ refTarget s v) :
    ∃ eb, byId s b = some eb ∧ eb.is_a "IfcRoot" = false := by
  cases v with
  | scalar => simp [refTarget] at hb
  | vlist items => simp [refTarget] at hb
  | ref r =>
    rcases hby : byId s r with _ | re
    · simp [refTarget, hby] at hb
    · by_cases hroot : re.is_a "IfcRoot" = true
      · simp [refTarget, hby, hroot] at hb
      · have hb' : b = r := by simpa [refTarget, hby, hroot] using hb
        subst hb'
        exact ⟨re, hby, by simpa using hroot⟩

theorem succs_resolves {s : Store} {e : Entity} {b : Nat}
    (hb : b ∈ succs s e) :
    ∃ eb, byId s b = some eb ∧ eb.is_a "IfcRoot" = false := by
  unfold succs at hb
  rcases hgi : get_info_vals e with _ | vs
  · rw [hgi] at hb; simp at hb
  · rw [hgi] at hb
    rcases List.mem_flatMap.mp hb with ⟨v, _, hv⟩
    cases v with
    | vlist items =>
      rcases List.mem_flatMap.mp (by simpa [valueTarget] using hv) with ⟨it, _, hit⟩
      exact refTarget_resolves hit
    | ref r => exact refTarget_resolves (by simpa [valueTarget] using hv)
    | scalar => simp [valueTarget, refTarget] at hv

theorem cd_cl_grow (s : Store) : ∀ fuel : Nat,
    (∀ r v x, x ∈ v → x ∈ collect_dependencies s fuel r v) ∧
    (∀ rs v x, x ∈ v → x ∈ collect_list s fuel rs v) := by
  intro fuel
  induction fuel with
  | zero =>
    refine ⟨fun r v x hx => by rw [cd_zero]; exact hx, ?_⟩
    intro rs
    induction rs with
    | nil => intro v x hx; exact hx
    | cons r rest ih =>
      intro v x hx
      rw [cl_cons]
      exact ih _ _ (by rw [cd_zero]; exact hx)
  | succ n ihn =>
    have hcd : ∀ r v x, x ∈ v → x ∈ collect_dependencies s (n + 1) r v := by
      intro r v x hx
      rcases hby : byId s r with _ | e
      · rw [cd_of_none hby]; exact hx
      · by_cases hm : e.eid ∈ v
        · rw [cd_of_mem hby hm]; exact hx
        · rw [cd_succ hby hm]
          exact ihn.2 _ _ _ (List.mem_cons_of_mem _ hx)
    refine ⟨hcd, ?_⟩
    intro rs
    induction rs with
    | nil => intro v x hx; exact hx
    | cons r rest ih =>
      intro v x hx
      rw [cl_cons]
      exact ih _ _ (hcd _ _ _ hx)

theorem cd_grow {s : Store} {fuel r : Nat} {v : List Nat} {x : Nat}
    (hx : x ∈ v) : x ∈ collect_dependencies s fuel r v :=
  (cd_cl_grow s fuel).1 r v x hx

theorem cl_grow {s : Store} {fuel : Nat} {rs v : List Nat} {x : Nat}
    (hx : x ∈ v) : x ∈ collect_list s fuel rs v :=
  (cd_cl_grow s fuel).2 rs v x hx

theorem cd_cl_sound (s : Store) : ∀ fuel : Nat,
    (∀ r v x, x ∈ collect_dependencies s fuel r v →
      x ∈ v ∨ Reaches s r x) ∧
    (∀ rs v x, x ∈ collect_list s fuel rs v →
      x ∈ v ∨ ∃ r ∈ rs, Reaches s r x) := by
  intro fuel
  induction fuel with
  | zero =>
    refine ⟨fun r v x hx => Or.inl (by rwa [cd_zero] at hx), ?_⟩
    intro rs
    induction rs with
    | nil => intro v x hx; exact Or.inl hx
    | cons r rest ih =>
      intro v x hx
      rw [cl_cons, cd_zero] at hx
      rcases ih _ _ hx with h | ⟨r', hr', hre⟩
      · exact Or.inl h
      · exact Or.inr ⟨r', List.mem_cons_of_mem _ hr', hre⟩
  | succ n ihn =>
    have hcd : ∀ r v x, x ∈ collect_dependencies s (n + 1) r v →
        x ∈ v ∨ Reaches s r x := by
      intro r v x hx
      rcases hby : byId s r with _ | e
      · rw [cd_of_none hby] at hx; exact Or.inl hx
      · by_cases hm : e.eid ∈ v
        · rw [cd_of_mem hby hm] at hx; exact Or.inl hx
        · rw [cd_succ hby hm] at hx
          rcases ihn.2 _ _ _ hx with hx' | ⟨b, hb, hres, hchain⟩
          · rcases List.mem_cons.mp hx' with rfl | hv
            · refine Or.inr ⟨by rw [hby]; rfl, ?_⟩
              rw [byId_eid hby]
            · exact Or.inl hv
          · refine Or.inr ⟨by rw [hby]; rfl, ?_⟩
            exact Relation.ReflTransGen.head ⟨e, hby, hb⟩ hchain
    refine ⟨hcd, ?_⟩
    intro rs
    induction rs with
    | nil => intro v x hx; exact Or.inl hx
    | cons r rest ih =>
      intro v x hx
      rw [cl_cons] at hx
      rcases ih _ _ hx with hx' | ⟨r', hr', hre⟩
      · rcases hcd _ _ _ hx' with h | h
        · exact Or.inl h
        · exact Or.inr ⟨r, List.mem_cons_self _ _, h⟩
      · exact Or.inr ⟨r', List.mem_cons_of_mem _ hr', hre⟩

theorem cd_sound {s : Store} {fuel r : Nat} {v : List Nat} {x : Nat}
    (hx : x ∈ collect_dependencies s fuel r v) : x ∈ v ∨ Reaches s r x :=
  (cd_cl_sound s fuel).1 r v x hx

theorem cd_self_mem {s : Store} {fuel r : Nat} {v : List Nat} {e : Entity}
    (h : byId s r = some e) (hf : 0 < fuel) :
    r ∈ collect_dependencies s fuel r v := by
  by_cases hm : e.eid ∈ v
  · rw [cd_of_mem h hm]
    rw [← byId_eid h]
    exact hm
  · obtain ⟨n, rfl⟩ : ∃ n, fuel = n + 1 := ⟨fuel - 1, by omega⟩
    rw [cd_succ h hm]
    refine cl_grow ?_
    rw [← byId_eid h]
    exact List.mem_cons_self _ _

theorem unseen_mono {s : Store} {v v' : List Nat}
    (h : ∀ x ∈ v, x ∈ v') : unseen s v' ≤ unseen s v := by
  refine Finset.card_le_card
    (Finset.sdiff_subset_sdiff (Finset.Subset.refl _) ?_)
  intro x hx
  rw [List.mem_toFinset] at hx ⊢
  exact h x hx

theorem unseen_cons_lt {s : Store} {r : Nat} {v : List Nat}
    (hr : r ∈ idsF s) (hv : r ∉ v) :
    unseen s (r :: v) < unseen s v := by
  unfold unseen
  rw [List.toFinset_cons, Finset.sdiff_insert]
  refine Finset.card_erase_lt_of_mem ?_
  rw [Finset.mem_sdiff, List.mem_toFinset]
  exact ⟨hr, hv⟩

theorem cl_visits (s : Store) (fuel : Nat) : ∀ rs v r, r ∈ rs →
    (byId s r).isSome → unseen s v < fuel →
    r ∈ collect_list s fuel rs v := by
  intro rs
  induction rs with
  | nil => intro v r hr; exact absurd hr (List.not_mem_nil _)
  | cons a rest ih =>
    intro v r hr hres hfuel
    rw [cl_cons]
    rcases List.mem_cons.mp hr with rfl | hr'
    · rcases Option.isSome_iff_exists.mp hres with ⟨e, he⟩
      exact cl_grow (cd_self_mem he (by omega))
    · refine ih _ _ hr' hres ?_
      exact lt_of_le_of_lt (unseen_mono fun x hx => cd_grow hx) hfuel

theorem cd_cl_closed (s : Store) : ∀ fuel : Nat,
    (∀ r v, unseen s v < fuel → ∀ a ea b,
      a ∈ collect_dependencies s fuel r v → a ∉ v →
      byId s a = some ea → b ∈ succs s ea →
      b ∈ collect_dependencies s fuel r v) ∧
    (∀ rs v, unseen s v < fuel → ∀ a ea b,
      a ∈ collect_list s fuel rs v → a ∉ v →
      byId s a = some ea → b ∈ succs s ea →
      b ∈ collect_list s fuel rs v) := by
  intro fuel
  induction fuel with
  | zero =>
    exact ⟨fun r v h => absurd h (by omega), fun rs v h => absurd h (by omega)⟩
  | succ n ihn =>
    have hcd : ∀ r v, unseen s v < n + 1 → ∀ a ea b,
        a ∈ collect_dependencies s (n + 1) r v → a ∉ v →
        byId s a = some ea → b ∈ succs s ea →
        b ∈ collect_dependencies s (n + 1) r v := by
      intro r v hfuel a ea b ha hav hbyA hbsucc
      rcases hby : byId s r with _ | e
      · rw [cd_of_none hby] at ha; exact absurd ha hav
      · by_cases hm : e.eid ∈ v
        · rw [cd_of_mem hby hm] at ha; exact absurd ha hav
        · rw [cd_succ hby hm] at ha ⊢
          have heid := byId_eid hby
          have hunseen : unseen s (e.eid :: v) < n := by
            have h1 : unseen s (e.eid :: v) < unseen s v := by
              rw [heid] at hm ⊢
              exact unseen_cons_lt (byId_mem_idsF hby) hm
            omega
          by_cases hae : a = e.eid
          · have hea : ea = e := by
              rw [hae, heid, hby] at hbyA
              exact (Option.some_inj.mp hbyA).symm
            subst hea
            rcases succs_resolves hbsucc with ⟨eb, hbyB, _⟩
            exact cl_visits s n _ _ b hbsucc (by rw [hbyB]; rfl) hunseen
          · have ha' : a ∉ e.eid :: v := by
              simp only [List.mem_cons]
              push_neg
              exact ⟨hae, hav⟩
            exact ihn.2 _ _ hunseen a ea b ha ha' hbyA hbsucc
    refine ⟨hcd, ?_⟩
    intro rs
    induction rs with
    | nil =>
      intro v _ a ea b ha hav
      exact absurd ha hav
    | cons r rest ih =>
      intro v hfuel a ea b ha hav hbyA hbsucc
      rw [cl_cons] at ha ⊢
      by_cases hav' : a ∈ collect_dependencies s (n + 1) r v
      · exact cl_grow (hcd r v hfuel a ea b hav' hav hbyA hbsucc)
      · have hfuel' :
            unseen s (collect_dependencies s (n + 1) r v) < n + 1 :=
          lt_of_le_of_lt (unseen_mono fun x hx => cd_grow hx) hfuel
        exact ih _ hfuel' a ea b ha hav' hbyA hbsucc

theorem ccf_nil {s : Store} {fuel : Nat} {v : List Nat} :
    collect_closure_from s fuel [] v = v := rfl

theorem ccf_cons {s : Store} {fuel r : Nat} {seeds v : List Nat} :
    collect_closure_from s fuel (r :: seeds) v =
      collect_closure_from s fuel seeds (collect_dependencies s fuel r v) := rfl

theorem ccf_grow (s : Store) (fuel : Nat) : ∀ seeds v x, x ∈ v →
    x ∈ collect_closure_from s fuel seeds v := by
  intro seeds
  induction seeds with
  | nil => intro v x hx; exact hx
  | cons r rest ih =>
    intro v x hx
    rw [ccf_cons]
    exact ih _ _ (cd_grow hx)

theorem ccf_sound (s : Store) (fuel : Nat) : ∀ seeds v x,
    x ∈ collect_closure_from s fuel seeds v →
    x ∈ v ∨ ∃ r ∈ seeds, Reaches s r x := by
  intro seeds
  induction seeds with
  | nil => intro v x hx; exact Or.inl hx
  | cons r rest ih =>
    intro v x hx
    rw [ccf_cons] at hx
    rcases ih _ _ hx with hx' | ⟨r', hr', hre⟩
    · rcases cd_sound hx' with h | h
      · exact Or.inl h
      · exact Or.inr ⟨r, List.mem_cons_self _ _, h⟩
    · exact Or.inr ⟨r', List.mem_cons_of_mem _ hr', hre⟩

theorem ccf_visits (s : Store) (fuel : Nat) : ∀ seeds v r, r ∈ seeds →
    (byId s r).isSome → unseen s v < fuel →
    r ∈ collect_closure_from s fuel seeds v := by
  intro seeds
  induction seeds with
  | nil => intro v r hr; exact absurd hr (List.not_mem_nil _)
  | cons a rest ih =>
    intro v r hr hres hfuel
    rw [ccf_cons]
    rcases List.mem_cons.mp hr with rfl | hr'
    · rcases Option.isSome_iff_exists.mp hres with ⟨e, he⟩
      exact ccf_grow _ _ _ _ _ (cd_self_mem he (by omega))
    · refine ih _ _ hr' hres ?_
      exact lt_of_le_of_lt (unseen_mono fun x hx => cd_grow hx) hfuel

theorem ccf_closed (s : Store) (fuel : Nat) : ∀ seeds v,
    unseen s v < fuel → ∀ a ea b,
    a ∈ collect_closure_from s fuel seeds v → a ∉ v →
    byId s a = some ea → b ∈ succs s ea →
    b ∈ collect_closure_from s fuel seeds v := by
  intro seeds
  induction seeds with
  | nil => intro v _ a ea b ha hav; exact absurd ha hav
  | cons r rest ih =>
    intro v hfuel a ea b ha hav hbyA hbsucc
    rw [ccf_cons] at ha ⊢
    by_cases hav' : a ∈ collect_dependencies s fuel r v
    · refine ccf_grow _ _ _ _ _ ?_
      exact (cd_cl_closed s fuel).1 r v hfuel a ea b hav' hav hbyA hbsucc
    · have hfuel' : unseen s (collect_dependencies s fuel r v) < fuel :=
        lt_of_le_of_lt (unseen_mono fun x hx => cd_grow hx) hfuel
      exact ih _ hfuel' a ea b ha hav' hbyA hbsucc

theorem reaches_mem_of_closed {s : Store} {W : List Nat}
    (hclosed : ∀ a ea b, a ∈ W → byId s a = some ea →
      b ∈ succs s ea → b ∈ W)
    {r x : Nat} (hr : r ∈ W)
    (hx : Relation.ReflTransGen (stepRel s) r x) : x ∈ W := by
  induction hx with
  | refl => exact hr
  | tail _ hbc ih =>
    rcases hbc with ⟨eb, hbyB, hsub⟩
    exact hclosed _ _ _ ih hbyB hsub

theorem unseen_nil {s : Store} : unseen s [] = (idsF s).card := by
  simp [unseen]

/-- The central characterization: with enough fuel, the visited set the
engine returns is exactly the set of ids reachable from the seeds. -/
theorem collect_closure_mem_iff {s : Store} {fuel : Nat}
    (hf : (idsF s).card < fuel) (seeds : List Nat) (x : Nat) :
    x ∈ collect_closure s fuel seeds ↔ ∃ r ∈ seeds, Reaches s r x := by
  have hnil : unseen s [] < fuel := by rw [unseen_nil]; exact hf
  constructor
  · intro hx
    rcases ccf_sound s fuel seeds [] x hx with hx0 | h
    · exact absurd hx0 (List.not_mem_nil _)
    · exact h
  · rintro ⟨r, hr, hres, hchain⟩
    have hW : r ∈ collect_closure s fuel seeds :=
      ccf_visits s fuel seeds [] r hr hres hnil
    refine reaches_mem_of_closed ?_ hW hchain
    intro a ea b ha hbyA hbsucc
    exact ccf_closed s fuel seeds [] hnil a ea b ha
      (List.not_mem_nil _) hbyA hbsucc

/-- Only chain starts can be root-typed: every traversal edge ends at a
non-root entity. -/
theorem reaches_root_eq {s : Store} {r x : Nat} {ex : Entity}
    (hx : byId s x = some ex) (hroot : ex.is_a "IfcRoot" = true)
    (h : Relation.ReflTransGen (stepRel s) r x) : x = r := by
  rcases Relation.ReflTransGen.cases_tail h with h' | ⟨c, _, hstep⟩
  · exact h'
  · rcases hstep with ⟨ec, _, hsubc⟩
    rcases succs_resolves hsubc with ⟨eb, hbyB, hnb⟩
    rw [hx] at hbyB
    rw [Option.some_inj.mp hbyB] at hroot
    rw [hroot] at hnb
    exact absurd hnb (by simp)

/-! ## Permutation invariance of the traversal structure -/

theorem StorePerm.symm {s s' : Store} (h : StorePerm s s') : StorePerm s' s := by
  induction h with
  | nil => exact List.Forall₂.nil
  | cons he _ ih =>
    exact List.Forall₂.cons
      ⟨he.1.symm, he.2.1.symm, he.2.2.1.symm, he.2.2.2.symm⟩ ih

theorem byId_perm {s s' : Store} (h : StorePerm s s') (r : Nat) :
    Option.Rel EntityPerm (byId s r) (byId s' r) := by
  induction h with
  | nil => constructor
  | @cons e e' t t' he _ ih =>
    by_cases hc : (e.eid == r) = true
    · have hc' : (e'.eid == r) = true := by rw [← he.1]; exact hc
      have h1 : byId (e :: t) r = some e := List.find?_cons_of_pos _ hc
      have h2 : byId (e' :: t') r = some e' := List.find?_cons_of_pos _ hc'
      rw [h1, h2]
      exact Option.Rel.some he
    · have hc' : ¬ (e'.eid == r) = true := by rw [← he.1]; exact hc
      have h1 : byId (e :: t) r = byId t r := List.find?_cons_of_neg _ hc
      have h2 : byId (e' :: t') r = byId t' r := List.find?_cons_of_neg _ hc'
      rw [h1, h2]
      exact ih

theorem refTarget_perm {s s' : Store} (h : StorePerm s s') (v : AttrValue) :
    refTarget s v = refTarget s' v := by
  cases v with
  | scalar => rfl
  | vlist items => rfl
  | ref r =>
    have hrel := byId_perm h r
    rcases hby : byId s r with _ | e <;> rcases hby' : byId s' r with _ | e' <;>
      rw [hby, hby'] at hrel
    · simp [refTarget, hby, hby']
    · cases hrel
    · cases hrel
    · cases hrel with
      | some hee => simp [refTarget, hby, hby', hee.2.1]

theorem valueTarget_perm {s s' : Store} (h : StorePerm s s') (v : AttrValue) :
    valueTarget s v = valueTarget s' v := by
  have hrt : refTarget s = refTarget s' := funext (refTarget_perm h)
  cases v <;> simp [valueTarget, hrt]

theorem succs_perm_mem {s s' : Store} (h : StorePerm s s') {e e' : Entity}
    (he : EntityPerm e e') (b : Nat) :
    b ∈ succs s e ↔ b ∈ succs s' e' := by
  have hvt : valueTarget s = valueTarget s' := funext (valueTarget_perm h)
  unfold succs get_info_vals
  rw [he.2.2.1]
  by_cases hok : e'.infoOk
  · simp only [hok, if_true, hvt]
    exact (he.2.2.2.flatMap_right _).mem_iff
  · simp [hok]

theorem stepRel_perm_mp {s s' : Store} (h : StorePerm s s') {a b : Nat}
    (hs : stepRel s a b) : stepRel s' a b := by
  rcases hs with ⟨ea, hby, hsucc⟩
  have hrel := byId_perm h a
  rcases hby' : byId s' a with _ | ea' <;> rw [hby, hby'] at hrel
  · cases hrel
  · cases hrel with
    | some hee => exact ⟨ea', hby', (succs_perm_mem h hee b).mp hsucc⟩

theorem isSome_byId_perm {s s' : Store} (h : StorePerm s s') (r : Nat) :
    (byId s r).isSome = (byId s' r).isSome := by
  have hrel := byId_perm h r
  rcases hby : byId s r with _ | e <;> rcases hby' : byId s' r with _ | e' <;>
    rw [hby, hby'] at hrel
  all_goals first
  | rfl
  | cases hrel

theorem reaches_perm {s s' : Store} (h : StorePerm s s') (a x : Nat) :
    Reaches s a x ↔ Reaches s' a x := by
  constructor
  · rintro ⟨hres, hchain⟩
    exact ⟨by rw [← isSome_byId_perm h]; exact hres,
      Relation.ReflTransGen.mono (fun p q hpq => stepRel_perm_mp h hpq) hchain⟩
  · rintro ⟨hres, hchain⟩
    exact ⟨by rw [isSome_byId_perm h]; exact hres,
      Relation.ReflTransGen.mono
        (fun p q hpq => stepRel_perm_mp h.symm hpq) hchain⟩

theorem idsF_perm {s s' : Store} (h : StorePerm s s') : idsF s = idsF s' := by
  have hmap : s.map Entity.eid = s'.map Entity.eid := by
    induction h with
    | nil => rfl
    | cons he _ ih => simp [he.1, ih]
  rw [idsF, idsF, hmap]

/-! ## Lemmas about the partition planner -/

theorem mem_set_add_iff {x y : Nat} {acc : List Nat} :
    x ∈ set_add y acc ↔ x = y ∨ x ∈ acc :=
  List.mem_insert_iff

theorem mem_set_add_self {y : Nat} {acc : List Nat} : y ∈ set_add y acc :=
  mem_set_add_iff.mpr (Or.inl rfl)

theorem mem_set_add_of_mem {x y : Nat} {acc : List Nat} (h : x ∈ acc) :
    x ∈ set_add y acc :=
  mem_set_add_iff.mpr (Or.inr h)

theorem mem_opt_insert_of_mem {x : Nat} {o : Option Nat} {acc : List Nat}
    (h : x ∈ acc) : x ∈ opt_insert o acc := by
  cases o with
  | none => exact h
  | some y => exact mem_set_add_of_mem h

theorem mem_opt_insert_iff {x : Nat} {o : Option Nat} {acc : List Nat} :
    x ∈ opt_insert o acc ↔ o = some x ∨ x ∈ acc := by
  cases o with
  | none => simp [opt_insert]
  | some y => simp [opt_insert, mem_set_add_iff, eq_comm]

theorem mem_foldl_set_add_of_mem_acc {l acc : List Nat} {x : Nat}
    (h : x ∈ acc) : x ∈ l.foldl (fun a y => set_add y a) acc := by
  induction l generalizing acc with
  | nil => exact h
  | cons y rest ih => exact ih (mem_set_add_of_mem h)

theorem mem_foldl_set_add_of_mem_list {l acc : List Nat} {x : Nat}
    (h : x ∈ l) : x ∈ l.foldl (fun a y => set_add y a) acc := by
  induction l generalizing acc with
  | nil => exact absurd h (List.not_mem_nil _)
  | cons y rest ih =>
    rw [List.foldl_cons]
    rcases List.mem_cons.mp h with rfl | h'
    · exact mem_foldl_set_add_of_mem_acc mem_set_add_self
    · exact ih h'

theorem mem_foldl_set_add_iff {l acc : List Nat} {x : Nat} :
    x ∈ l.foldl (fun a y => set_add y a) acc ↔ x ∈ l ∨ x ∈ acc := by
  induction l generalizing acc with
  | nil => simp
  | cons y rest ih =>
    rw [List.foldl_cons]
    constructor
    · intro h
      rcases ih.mp h with h' | h'
      · exact Or.inl (List.mem_cons_of_mem _ h')
      · rcases mem_set_add_iff.mp h' with rfl | h''
        · exact Or.inl (List.mem_cons_self _ _)
        · exact Or.inr h''
    · intro h
      rcases h with h' | h'
      · rcases List.mem_cons.mp h' with rfl | h''
        · exact mem_foldl_set_add_of_mem_acc mem_set_add_self
        · exact mem_foldl_set_add_of_mem_list h''
      · exact mem_foldl_set_add_of_mem_acc (mem_set_add_of_mem h')


theorem mem_aer_of_mem {m : Maps} {acc : List Nat} {el x : Nat}
    (h : x ∈ acc) : x ∈ add_element_roots m acc el := by
  unfold add_element_roots
  refine mem_foldl_set_add_of_mem_acc (mem_foldl_set_add_of_mem_acc ?_)
  cases m.element_to_type el with
  | none => exact mem_set_add_of_mem h
  | some t => exact mem_set_add_of_mem (mem_set_add_of_mem h)

theorem self_mem_aer {m : Maps} {acc : List Nat} {el : Nat} :
    el ∈ add_element_roots m acc el := by
  unfold add_element_roots
  refine mem_foldl_set_add_of_mem_acc (mem_foldl_set_add_of_mem_acc ?_)
  cases m.element_to_type el with
  | none => exact mem_set_add_self
  | some t => exact mem_set_add_of_mem mem_set_add_self

theorem type_mem_aer {m : Maps} {acc : List Nat} {el t : Nat}
    (ht : m.element_to_type el = some t) :
    t ∈ add_element_roots m acc el := by
  unfold add_element_roots
  rw [ht]
  exact mem_foldl_set_add_of_mem_acc
    (mem_foldl_set_add_of_mem_acc mem_set_add_self)

theorem material_mem_aer {m : Maps} {acc : List Nat} {el mat : Nat}
    (hm : mat ∈ m.element_to_materials el) :
    mat ∈ add_element_roots m acc el := by
  unfold add_element_roots
  exact mem_foldl_set_add_of_mem_acc (mem_foldl_set_add_of_mem_list hm)

theorem pset_mem_aer {m : Maps} {acc : List Nat} {el p : Nat}
    (hp : p ∈ m.element_to_psets el) :
    p ∈ add_element_roots m acc el := by
  unfold add_element_roots
  exact mem_foldl_set_add_of_mem_list hp

theorem mem_foldl_aer_of_mem_acc {m : Maps} {elements acc : List Nat}
    {x : Nat} (h : x ∈ acc) :
    x ∈ elements.foldl (add_element_roots m) acc := by
  induction elements generalizing acc with
  | nil => exact h
  | cons el rest ih => exact ih (mem_aer_of_mem h)

theorem foldl_aer_spec {m : Maps} {elements : List Nat} {el : Nat}
    (h : el ∈ elements) : ∀ acc : List Nat,
    el ∈ elements.foldl (add_element_roots m) acc ∧
    (∀ t, m.element_to_type el = some t →
      t ∈ elements.foldl (add_element_roots m) acc) ∧
    (∀ mat ∈ m.element_to_materials el,
      mat ∈ elements.foldl (add_element_roots m) acc) ∧
    (∀ p ∈ m.element_to_psets el,
      p ∈ elements.foldl (add_element_roots m) acc) := by
  induction elements with
  | nil => exact absurd h (List.not_mem_nil _)
  | cons a rest ih =>
    intro acc
    rw [List.foldl_cons]
    rcases List.mem_cons.mp h with rfl | h'
    · refine ⟨mem_foldl_aer_of_mem_acc self_mem_aer,
        fun t ht => mem_foldl_aer_of_mem_acc (type_mem_aer ht),
        fun mat hm => mem_foldl_aer_of_mem_acc (material_mem_aer hm),
        fun p hp => mem_foldl_aer_of_mem_acc (pset_mem_aer hp)⟩
    · exact ih h' _

theorem aer_subset {m : Maps} {acc : List Nat} {el x : Nat}
    (h : x ∈ add_element_roots m acc el) :
    x ∈ acc ∨ x = el ∨ (m.element_to_type el = some x ∨
      x ∈ m.element_to_materials el ∨ x ∈ m.element_to_psets el) := by
  unfold add_element_roots at h
  rcases mem_foldl_set_add_iff.mp h with h1 | h1
  · exact Or.inr (Or.inr (Or.inr (Or.inr h1)))
  rcases mem_foldl_set_add_iff.mp h1 with h2 | h2
  · exact Or.inr (Or.inr (Or.inr (Or.inl h2)))
  rcases hmt : m.element_to_type el with _ | t
  · rw [hmt] at h2
    rcases mem_set_add_iff.mp h2 with rfl | h3
    · exact Or.inr (Or.inl rfl)
    · exact Or.inl h3
  · rw [hmt] at h2
    rcases mem_set_add_iff.mp h2 with rfl | h3
    · exact Or.inr (Or.inr (Or.inl rfl))
    rcases mem_set_add_iff.mp h3 with rfl | h4
    · exact Or.inr (Or.inl rfl)
    · exact Or.inl h4

theorem foldl_aer_subset {m : Maps} {elements : List Nat} :
    ∀ acc x, x ∈ elements.foldl (add_element_roots m) acc →
    x ∈ acc ∨ x ∈ elements ∨ x ∈ aux_roots m elements := by
  induction elements with
  | nil => exact fun acc x h => Or.inl h
  | cons a rest ih =>
    intro acc x h
    rcases ih _ _ h with h1 | h1 | h1
    · rcases aer_subset h1 with h2 | h2 | h2
      · exact Or.inl h2
      · exact Or.inr (Or.inl (h2 ▸ List.mem_cons_self _ _))
      · refine Or.inr (Or.inr ?_)
        unfold aux_roots
        refine List.mem_flatMap.mpr ⟨a, List.mem_cons_self _ _, ?_⟩
        rcases h2 with h3 | h3 | h3
        · simp [h3]
        · simp [h3]
        · simp [h3]
    · exact Or.inr (Or.inl (List.mem_cons_of_mem _ h1))
    · refine Or.inr (Or.inr ?_)
      unfold aux_roots at h1 ⊢
      rcases List.mem_flatMap.mp h1 with ⟨el, hel, hx⟩
      exact List.mem_flatMap.mpr ⟨el, List.mem_cons_of_mem _ hel, hx⟩

theorem entities_to_copy_subset {project site building : Option Nat}
    {storey : Nat} {elements : List Nat} {m : Maps} {x : Nat}
    (h : x ∈ entities_to_copy project site building storey elements m) :
    x ∈ ancestor_chain project site building ∨ x = storey ∨
      x ∈ elements ∨ x ∈ aux_roots m elements := by
  unfold entities_to_copy at h
  rcases foldl_aer_subset _ _ h with h1 | h1 | h1
  · rcases mem_set_add_iff.mp h1 with rfl | h2
    · exact Or.inr (Or.inl rfl)
    · refine Or.inl ?_
      unfold ancestor_chain
      rcases mem_opt_insert_iff.mp h2 with h3 | h3
      · exact mem_opt_insert_of_mem (mem_opt_insert_of_mem
          (mem_opt_insert_iff.mpr (Or.inl h3)))
      rcases mem_opt_insert_iff.mp h3 with h4 | h4
      · exact mem_opt_insert_of_mem (mem_opt_insert_iff.mpr (Or.inl h4))
      rcases mem_opt_insert_iff.mp h4 with h5 | h5
      · exact mem_opt_insert_iff.mpr (Or.inl h5)
      · exact absurd h5 (List.not_mem_nil _)
  · exact Or.inr (Or.inr (Or.inl h1))
  · exact Or.inr (Or.inr (Or.inr h1))

/-! ## Duplicate-freeness of the planner's sets -/

theorem nodup_set_add {x : Nat} {acc : List Nat} (h : acc.Nodup) :
    (set_add x acc).Nodup :=
  List.Nodup.insert h

theorem nodup_opt_insert {o : Option Nat} {acc : List Nat} (h : acc.Nodup) :
    (opt_insert o acc).Nodup := by
  cases o with
  | none => exact h
  | some y => exact nodup_set_add h

theorem nodup_foldl_set_add {l acc : List Nat} (h : acc.Nodup) :
    (l.foldl (fun a y => set_add y a) acc).Nodup := by
  induction l generalizing acc with
  | nil => exact h
  | cons y rest ih => exact ih (nodup_set_add h)

theorem nodup_aer {m : Maps} {acc : List Nat} {el : Nat} (h : acc.Nodup) :
    (add_element_roots m acc el).Nodup := by
  unfold add_element_roots
  refine nodup_foldl_set_add (nodup_foldl_set_add ?_)
  cases m.element_to_type el with
  | none => exact nodup_set_add h
  | some t => exact nodup_set_add (nodup_set_add h)

theorem nodup_foldl_aer {m : Maps} {elements acc : List Nat}
    (h : acc.Nodup) : (elements.foldl (add_element_roots m) acc).Nodup := by
  induction elements generalizing acc with
  | nil => exact h
  | cons el rest ih => exact ih (nodup_aer h)

theorem nodup_entities_to_copy {project site building : Option Nat}
    {storey : Nat} {elements : List Nat} {m : Maps} :
    (entities_to_copy project site building storey elements m).Nodup := by
  unfold entities_to_copy
  exact nodup_foldl_aer (nodup_set_add (nodup_opt_insert
    (nodup_opt_insert (nodup_opt_insert List.nodup_nil))))

theorem nodup_all_entity_ids {E deps : List Nat} (h : E.Nodup) :
    (all_entity_ids E deps).Nodup := by
  unfold all_entity_ids
  induction deps generalizing E with
  | nil => exact h
  | cons i rest ih => exact ih (List.Nodup.insert h)

theorem mem_all_entity_ids_iff {E deps : List Nat} {x : Nat} :
    x ∈ all_entity_ids E deps ↔ x ∈ E ∨ x ∈ deps := by
  unfold all_entity_ids
  induction deps generalizing E with
  | nil => simp
  | cons i rest ih =>
    rw [List.foldl_cons, ih]
    rw [List.mem_insert_iff]
    constructor
    · rintro ((rfl | h) | h)
      · exact Or.inr (List.mem_cons_self _ _)
      · exact Or.inl h
      · exact Or.inr (List.mem_cons_of_mem _ h)
    · rintro (h | h)
      · exact Or.inl (Or.inr h)
      · rcases List.mem_cons.mp h with h' | h'
        · exact Or.inl (Or.inl h')
        · exact Or.inr h'

/-! ## The materializer's copy loop -/

theorem materialize_eq (verbose : Bool) (copyOk : Nat → Bool) :
    ∀ ids : List Nat, materialize verbose copyOk ids =
      (ids.filter copyOk,
        if verbose then ids.filter (fun i => !(copyOk i)) else []) := by
  intro ids
  induction ids with
  | nil => cases verbose <;> rfl
  | cons i rest ih =>
    rw [materialize, ih]
    by_cases hok : copyOk i
    · simp [hok, List.filter_cons]
    · have hok' : copyOk i = false := by
        cases h : copyOk i
        · rfl
        · exact absurd h hok
      cases verbose <;> simp [hok', List.filter_cons]

theorem length_filter_not_add {p : Nat → Bool} : ∀ ids : List Nat,
    (ids.filter p).length + (ids.filter (fun i => !(p i))).length =
      ids.length := by
  intro ids
  induction ids with
  | nil => rfl
  | cons i rest ih =>
    cases h : p i <;> simp [List.filter_cons, h] <;> omega

/-! ## The hierarchy resolver -/

theorem resolve_child_foldl (parent : Nat) (marker : String) :
    ∀ (rels : List AggRel) (acc : Option Entity),
    rels.foldl
      (fun acc rel =>
        if rel.RelatingObject == parent then
          match rel.RelatedObjects.find? (fun o => o.is_a marker) with
          | some o => some o
          | none => acc
        else acc)
      acc = (last_relation_match rels parent marker).or acc := by
  intro rels
  induction rels with
  | nil => intro acc; rfl
  | cons rel rest ih =>
    intro acc
    rw [List.foldl_cons, ih, last_relation_match]
    by_cases hp : (rel.RelatingObject == parent) = true
    · rw [if_pos hp, if_pos hp]
      cases hf : rel.RelatedObjects.find? (fun o => o.is_a marker) with
      | none =>
        show (last_relation_match rest parent marker).or acc =
          ((last_relation_match rest parent marker).or Option.none).or acc
        rw [Option.or_none]
      | some o =>
        show (last_relation_match rest parent marker).or (some o) =
          ((last_relation_match rest parent marker).or (some o)).or acc
        rcases last_relation_match rest parent marker with _ | b <;> rfl
    · rw [if_neg hp, if_neg hp, Option.or_none]

theorem resolve_child_eq_last (rels : List AggRel) (parent : Nat)
    (marker : String) :
    resolve_child rels parent marker =
      last_relation_match rels parent marker := by
  unfold resolve_child
  rw [resolve_child_foldl, Option.or_none]

/-! ## Syntactic characterization of the recursion targets -/

theorem mem_refTarget_iff {s : Store} {v : AttrValue} {b : Nat} :
    b ∈ refTarget s v ↔ v = AttrValue.ref b ∧
      ∃ eb, byId s b = some eb ∧ eb.is_a "IfcRoot" = false := by
  constructor
  · intro hb
    cases v with
    | scalar => simp [refTarget] at hb
    | vlist items => simp [refTarget] at hb
    | ref r =>
      rcases hby : byId s r with _ | re
      · simp [refTarget, hby] at hb
      · by_cases hroot : re.is_a "IfcRoot" = true
        · simp [refTarget, hby, hroot] at hb
        · have hb' : b = r := by simpa [refTarget, hby, hroot] using hb
          subst hb'
          exact ⟨rfl, re, hby, by simpa using hroot⟩
  · rintro ⟨rfl, eb, hby, hnroot⟩
    simp [refTarget, hby, hnroot]

theorem mem_succs_iff {s : Store} {e : Entity} {b : Nat} :
    b ∈ succs s e ↔ e.infoOk = true ∧
      (∃ eb, byId s b = some eb ∧ eb.is_a "IfcRoot" = false) ∧
      (AttrValue.ref b ∈ e.attrs ∨
        ∃ items, AttrValue.vlist items ∈ e.attrs ∧
          AttrValue.ref b ∈ items) := by
  unfold succs get_info_vals
  by_cases hok : e.infoOk
  · rw [if_pos hok]
    simp only [hok, true_and]
    rw [List.mem_flatMap]
    constructor
    · rintro ⟨v, hv, hb⟩
      cases v with
      | scalar => simp [valueTarget, refTarget] at hb
      | ref r =>
        rcases mem_refTarget_iff.mp (by simpa [valueTarget] using hb)
          with ⟨hveq, hres⟩
        exact ⟨hres, Or.inl (hveq ▸ hv)⟩
      | vlist items =>
        rcases List.mem_flatMap.mp (by simpa [valueTarget] using hb)
          with ⟨it, hit, hb'⟩
        rcases mem_refTarget_iff.mp hb' with ⟨hveq, hres⟩
        exact ⟨hres, Or.inr ⟨items, hv, hveq ▸ hit⟩⟩
    · rintro ⟨hres, hpos | ⟨items, hitems, hpos⟩⟩
      · exact ⟨AttrValue.ref b, hpos,
          by simp [valueTarget]; exact mem_refTarget_iff.mpr ⟨rfl, hres⟩⟩
      · refine ⟨AttrValue.vlist items, hitems, ?_⟩
        simp only [valueTarget]
        exact List.mem_flatMap.mpr
          ⟨AttrValue.ref b, hpos, mem_refTarget_iff.mpr ⟨rfl, hres⟩⟩
  · rw [if_neg hok]
    simp [hok]

/-! ## Claims -/

/-- C1 counterexample: seed id 1 resolves to a store entity, the fuel
bound holds, and yet 1 IS a member of the set the dependency-closure
computation returns — contradicting `closure = V \ S` ("no seed entity
is a member of the returned closure set"). -/
theorem C1_counterexample :
    1 ∈ collect_closure storeSeed 10 [1] ∧
      (byId storeSeed 1).isSome = true ∧ (idsF storeSeed).card < 10 := by
  refine ⟨by decide, by decide, by decide⟩

/-- C1 (amended): the dependency-closure computation returns exactly
`V`, the set of ids reachable by depth-first traversal from the seeds —
including every resolvable seed itself, because `collect_dependencies`
adds the entity it is called on to the visited set before recursing.
The final copied set `explicitRoots ∪ closure` is unaffected since the
seeds are unioned back in. -/
theorem C1_closure_is_reachable_set (s : Store) (fuel : Nat)
    (seeds : List Nat) (hf : (idsF s).card < fuel) :
    (∀ x, x ∈ collect_closure s fuel seeds ↔ ∃ r ∈ seeds, Reaches s r x) ∧
    (∀ r ∈ seeds, (byId s r).isSome →
      r ∈ collect_closure s fuel seeds) := by
  refine ⟨fun x => collect_closure_mem_iff hf seeds x, fun r hr hres => ?_⟩
  exact (collect_closure_mem_iff hf seeds r).mpr
    ⟨r, hr, hres, Relation.ReflTransGen.refl⟩

/-- C1 witness: the amended theorem applied to the concrete one-entity
store with seed 1. -/
theorem C1_witness : 1 ∈ collect_closure storeSeed 10 [1] :=
  (C1_closure_is_reachable_set storeSeed 10 [1] (by decide)).2 1
    (by decide) (by decide)

/-- C2 counterexample: in `storeNested`, entity 1 (seed, visited)
references the non-root entity 2 only inside a list of lists; 2 is
resolvable, non-root and unvisited, yet the traversal never recurses
into it — refuting "every reference to a non-root-typed entity is
recursed into if not already visited". -/
theorem C2_counterexample :
    2 ∉ collect_closure storeNested 10 [1] ∧
    1 ∈ collect_closure storeNested 10 [1] ∧
    (byId storeNested 1).map Entity.attrs =
      some [AttrValue.vlist [AttrValue.vlist [AttrValue.ref 2]]] ∧
    (byId storeNested 2).map (fun e => e.is_a "IfcRoot") = some false ∧
    (idsF storeNested).card < 10 := by
  refine ⟨by decide, by decide, rfl, rfl, by decide⟩

/-- C2 (amended): root-typed references are traversal boundaries — a
root-typed entity is in the returned set only if it is a seed — and
every reference the traversal examines (a direct attribute value or a
direct item of a list-valued attribute, resolvable and non-root) is
recursed into and lands in the returned set; but references nested
deeper than one list level are never examined. -/
theorem C2_boundary_and_depth1 (s : Store) (fuel : Nat) (seeds : List Nat)
    (hf : (idsF s).card < fuel) :
    (∀ x ex, x ∈ collect_closure s fuel seeds → byId s x = some ex →
      ex.is_a "IfcRoot" = true → x ∈ seeds) ∧
    (∀ a ea b, a ∈ collect_closure s fuel seeds → byId s a = some ea →
      b ∈ succs s ea → b ∈ collect_closure s fuel seeds) ∧
    (∀ e b, b ∈ succs s e ↔ e.infoOk = true ∧
      (∃ eb, byId s b = some eb ∧ eb.is_a "IfcRoot" = false) ∧
      (AttrValue.ref b ∈ e.attrs ∨
        ∃ items, AttrValue.vlist items ∈ e.attrs ∧
          AttrValue.ref b ∈ items)) := by
  have hnil : unseen s [] < fuel := by rw [unseen_nil]; exact hf
  refine ⟨?_, ?_, fun e b => mem_succs_iff⟩
  · intro x ex hx hby hroot
    rcases (collect_closure_mem_iff hf seeds x).mp hx with ⟨r, hr, _, hchain⟩
    have hxr := reaches_root_eq hby hroot hchain
    exact hxr ▸ hr
  · intro a ea b ha hbyA hbsucc
    exact ccf_closed s fuel seeds [] hnil a ea b ha
      (List.not_mem_nil _) hbyA hbsucc

/-- C2 witness: in `storeChain` the depth-one reference from entity 1 to
the non-root entity 2 is recursed into. -/
theorem C2_witness : 2 ∈ collect_closure storeChain 10 [1] :=
  (C2_boundary_and_depth1 storeChain 10 [1] (by decide)).2.1 1
    ⟨1, nonRootTag, true, [AttrValue.ref 2, AttrValue.scalar]⟩ 2
    (by decide) rfl (by decide)

/-- C3: for every member element of a container, the explicit-root set
contains the resolved ancestor chain, the container, the element, its
type (if mapped), all its materials, and all its property sets. -/
theorem C3_explicit_roots_complete (project site building : Option Nat)
    (storey : Nat) (elements : List Nat) (m : Maps) (el : Nat)
    (h : el ∈ elements) :
    el ∈ entities_to_copy project site building storey elements m ∧
    storey ∈ entities_to_copy project site building storey elements m ∧
    (∀ p, project = some p →
      p ∈ entities_to_copy project site building storey elements m) ∧
    (∀ x, site = some x →
      x ∈ entities_to_copy project site building storey elements m) ∧
    (∀ b, building = some b →
      b ∈ entities_to_copy project site building storey elements m) ∧
    (∀ t, m.element_to_type el = some t →
      t ∈ entities_to_copy project site building storey elements m) ∧
    (∀ mat ∈ m.element_to_materials el,
      mat ∈ entities_to_copy project site building storey elements m) ∧
    (∀ p ∈ m.element_to_psets el,
      p ∈ entities_to_copy project site building storey elements m) := by
  have hspec := foldl_aer_spec (m := m) h
    (set_add storey (opt_insert building (opt_insert site
      (opt_insert project []))))
  refine ⟨hspec.1, mem_foldl_aer_of_mem_acc mem_set_add_self,
    ?_, ?_, ?_, hspec.2.1, hspec.2.2.1, hspec.2.2.2⟩
  · rintro p rfl
    exact mem_foldl_aer_of_mem_acc (mem_set_add_of_mem
      (mem_opt_insert_of_mem (mem_opt_insert_of_mem
        (mem_opt_insert_iff.mpr (Or.inl rfl)))))
  · rintro x rfl
    exact mem_foldl_aer_of_mem_acc (mem_set_add_of_mem
      (mem_opt_insert_of_mem (mem_opt_insert_iff.mpr (Or.inl rfl))))
  · rintro b rfl
    exact mem_foldl_aer_of_mem_acc (mem_set_add_of_mem
      (mem_opt_insert_iff.mpr (Or.inl rfl)))

/-- C3 witness: concrete partition with ancestors 1/2/3, storey 100,
element 10 of type 7, materials 5 and 6, property set 8. -/
theorem C3_witness :
    10 ∈ entities_to_copy (some 1) (some 2) (some 3) 100 [10] mapsWitness ∧
    100 ∈ entities_to_copy (some 1) (some 2) (some 3) 100 [10] mapsWitness ∧
    1 ∈ entities_to_copy (some 1) (some 2) (some 3) 100 [10] mapsWitness ∧
    2 ∈ entities_to_copy (some 1) (some 2) (some 3) 100 [10] mapsWitness ∧
    3 ∈ entities_to_copy (some 1) (some 2) (some 3) 100 [10] mapsWitness ∧
    7 ∈ entities_to_copy (some 1) (some 2) (some 3) 100 [10] mapsWitness ∧
    5 ∈ entities_to_copy (some 1) (some 2) (some 3) 100 [10] mapsWitness ∧
    6 ∈ entities_to_copy (some 1) (some 2) (some 3) 100 [10] mapsWitness ∧
    8 ∈ entities_to_copy (some 1) (some 2) (some 3) 100 [10] mapsWitness := by
  have h := C3_explicit_roots_complete (some 1) (some 2) (some 3) 100 [10]
    mapsWitness 10 (by decide)
  exact ⟨h.1, h.2.1, h.2.2.1 1 rfl, h.2.2.2.1 2 rfl, h.2.2.2.2.1 3 rfl,
    h.2.2.2.2.2.1 7 rfl, h.2.2.2.2.2.2.1 5 (by decide),
    h.2.2.2.2.2.2.1 6 (by decide), h.2.2.2.2.2.2.2 8 (by decide)⟩

/-- C4 counterexample: two aggregation relations under project 1 each
contain a site; the resolver answers the site of the SECOND (last)
relation (id 20), not the first (id 10) — the inner `break` only stops
the scan of one relation's `RelatedObjects`, the outer loop keeps
overwriting. -/
theorem C4_counterexample :
    (resolve_child [relFirst, relSecond] 1 "IfcSite").map Entity.eid =
      some 20 ∧
    (relFirst.RelatedObjects.find? (fun o => o.is_a "IfcSite")).map
      Entity.eid = some 10 ∧
    relFirst.RelatingObject = 1 ∧ relSecond.RelatingObject = 1 := by
  exact ⟨rfl, rfl, rfl, rfl⟩

/-- C4 (amended): when multiple aggregation relations claim the same
child level, the LAST relation encountered in iteration order that
contains a child of the sought type determines the resolved ancestor;
within a single relation, the first matching child of its
`RelatedObjects` wins. -/
theorem C4_last_match_wins (rels : List AggRel) (parent : Nat)
    (marker : String) :
    resolve_child rels parent marker =
      last_relation_match rels parent marker :=
  resolve_child_eq_last rels parent marker

/-- C5 counterexample: a run whose every partition fails (one storey,
its `try` block raising) still exits with code 0, refuting "a run in
which every partition fails is reported as overall failure". -/
theorem C5_counterexample :
    main_exit_code ⟨true, true, true, [false]⟩ = 0 ∧
    any_partition_succeeded ⟨true, true, true, [false]⟩ = false := by
  exact ⟨rfl, rfl⟩

/-- C5 (amended): the process exits 0 iff every fatal precondition
passes — `ifcopenshell` importable, input file present, load succeeds,
at least one storey found; per-partition outcomes never influence the
exit code (each storey's exception is caught and `continue`d, and the
function returns `True` unconditionally afterwards). -/
theorem C5_exit_reflects_preconditions (r : RunInput) :
    main_exit_code r = 0 ↔
      (r.ifcopenshell_ok = true ∧ r.file_exists = true ∧
        r.load_ok = true ∧ r.storey_outcomes ≠ []) := by
  rcases r with ⟨imp, fex, lok, outs⟩
  unfold main_exit_code split_ifc_ultrafast
  cases imp <;> cases fex <;> cases lok <;> cases outs <;> simp

/-- C6 counterexample: with `verbose = False`, the failing copy of
entity 2 produces no log entry, and the result `([1], [])` is identical
to that of a failure-free run over `[1]` — so the loop neither logs
unconditionally nor returns a `(writtenCount, failedCount)` pair (the
failure count is not even recoverable from its outputs). -/
theorem C6_counterexample :
    materialize false (fun i => !(i == 2)) [1, 2] = ([1], []) ∧
    (fun i : Nat => !(i == 2)) 2 = false ∧
    materialize false (fun _ => true) [1] = ([1], []) := by
  exact ⟨rfl, rfl, rfl⟩

/-- C6 (amended): each per-entity copy failure is caught individually
and skipped while the partition continues with the remaining entities —
the written sequence is exactly the succeeding ids in order — but a
warning is logged only when `verbose` holds, and no
`(writtenCount, failedCount)` pair is returned (only the new store's
contents and the verbose-mode warnings exist; the stated length
equation holds of the run but is not part of any return value). -/
theorem C6_copy_failures_skipped (verbose : Bool) (copyOk : Nat → Bool)
    (ids : List Nat) :
    materialize verbose copyOk ids =
      (ids.filter copyOk,
        if verbose then ids.filter (fun i => !(copyOk i)) else []) ∧
    (materialize verbose copyOk ids).1.length +
      (ids.filter (fun i => !(copyOk i))).length = ids.length := by
  refine ⟨materialize_eq verbose copyOk ids, ?_⟩
  rw [materialize_eq]
  exact length_filter_not_add ids

/-- C7: the ids inserted into the new store are attempted in strictly
ascending order, every written id belongs to
`explicitRoots ∪ closure`, the written sequence is ascending, and when
every copy succeeds it enumerates exactly that union. -/
theorem C7_insertion_sorted (E deps : List Nat) (verbose : Bool)
    (copyOk : Nat → Bool) (hE : E.Nodup) :
    List.Sorted (· < ·)
      (materialize verbose copyOk (sorted_entity_ids E deps)).1 ∧
    (∀ x ∈ (materialize verbose copyOk (sorted_entity_ids E deps)).1,
      x ∈ all_entity_ids E deps) ∧
    ((∀ i, copyOk i = true) →
      (materialize verbose copyOk (sorted_entity_ids E deps)).1 =
        sorted_entity_ids E deps) ∧
    (∀ x, x ∈ sorted_entity_ids E deps ↔ x ∈ all_entity_ids E deps) := by
  have hperm : (sorted_entity_ids E deps).Perm (all_entity_ids E deps) :=
    List.perm_insertionSort _ _
  have hsorted_le : (sorted_entity_ids E deps).Sorted (· ≤ ·) :=
    List.sorted_insertionSort _ _
  have hnodup : (sorted_entity_ids E deps).Nodup :=
    hperm.nodup_iff.mpr (nodup_all_entity_ids hE)
  have hsorted : (sorted_entity_ids E deps).Sorted (· < ·) := by
    have hp := List.Pairwise.and hsorted_le hnodup
    exact hp.imp fun h => lt_of_le_of_ne h.1 h.2
  rw [materialize_eq]
  refine ⟨List.Pairwise.filter _ hsorted, ?_, ?_, fun x => hperm.mem_iff⟩
  · intro x hx
    exact hperm.mem_iff.mp (List.mem_of_mem_filter hx)
  · intro hall
    exact List.filter_eq_self.mpr fun a _ => hall a

/-- C7 witness: the theorem applied to a concrete explicit-root set and
closure. -/
theorem C7_witness :
    List.Sorted (· < ·)
      (materialize true (fun _ => true)
        (sorted_entity_ids [3, 1, 2] [5, 4])).1 :=
  (C7_insertion_sorted [3, 1, 2] [5, 4] true (fun _ => true) (by decide)).1

/-- C8: the closure set is invariant under permutation of each entity's
attribute-visitation order — two runs over attribute-permuted stores
return equal closure sets. -/
theorem C8_closure_order_independent (s s' : Store) (fuel : Nat)
    (seeds : List Nat) (hp : StorePerm s s')
    (hf : (idsF s).card < fuel) :
    ∀ x, x ∈ collect_closure s fuel seeds ↔
      x ∈ collect_closure s' fuel seeds := by
  intro x
  have hf' : (idsF s').card < fuel := by rw [← idsF_perm hp]; exact hf
  rw [collect_closure_mem_iff hf seeds x,
    collect_closure_mem_iff hf' seeds x]
  constructor
  · rintro ⟨r, hr, hre⟩
    exact ⟨r, hr, (reaches_perm hp r x).mp hre⟩
  · rintro ⟨r, hr, hre⟩
    exact ⟨r, hr, (reaches_perm hp r x).mpr hre⟩

/-- C8 witness: the theorem applied to `storeChain` and its
attribute-permuted variant. -/
theorem C8_witness :
    2 ∈ collect_closure storeChain 10 [1] ↔
      2 ∈ collect_closure storeChainPerm 10 [1] :=
  C8_closure_order_independent storeChain storeChainPerm 10 [1]
    (List.Forall₂.cons
      ⟨rfl, rfl, rfl, List.Perm.swap AttrValue.scalar (AttrValue.ref 2) []⟩
      (List.Forall₂.cons ⟨rfl, rfl, rfl, List.Perm.refl _⟩
        List.Forall₂.nil))
    (by decide) 2

/-- C9 counterexample: storeys 100 and 200 have disjoint member sets
([10] and [20]), yet the shared material 5 is in both partition
outputs while the ancestor chain is empty — the intersection is not
contained in the shared ancestor chain. -/
theorem C9_counterexample :
    5 ∈ partition_output storeShared 10 none none none 100 [10] mapsShared ∧
    5 ∈ partition_output storeShared 10 none none none 200 [20] mapsShared ∧
    5 ∉ ancestor_chain none none none ∧
    List.inter [10] [20] = ([] : List Nat) := by
  refine ⟨by decide, by decide, by decide, by decide⟩

/-- C9 (amended): for two containers with disjoint member sets, every
entity present in both outputs is in the shared ancestor chain, in one
of the two dependency closures (shared non-root dependencies), or is a
storey id or an auxiliary root (type, material or property set of a
member) — i.e. shared auxiliary roots and shared non-root dependencies
may legitimately occur in both outputs, and no entity is shared merely
as a member element of both containers. -/
theorem C9_shared_entities_characterized (s : Store) (fuel : Nat)
    (project site building : Option Nat) (st1 st2 : Nat)
    (els1 els2 : List Nat) (m : Maps)
    (hdisj : ∀ x ∈ els1, x ∉ els2) (x : Nat)
    (h1 : x ∈ partition_output s fuel project site building st1 els1 m)
    (h2 : x ∈ partition_output s fuel project site building st2 els2 m) :
    x ∈ ancestor_chain project site building ∨
    x ∈ collect_closure s fuel
      ((entities_to_copy project site building st1 els1 m).insertionSort
        (· ≤ ·)) ∨
    x ∈ collect_closure s fuel
      ((entities_to_copy project site building st2 els2 m).insertionSort
        (· ≤ ·)) ∨
    x = st1 ∨ x = st2 ∨ x ∈ aux_roots m els1 ∨ x ∈ aux_roots m els2 := by
  unfold partition_output at h1 h2
  rcases mem_all_entity_ids_iff.mp h1 with hE1 | hC1
  · rcases entities_to_copy_subset hE1 with hch | hst | hmem | haux
    · exact Or.inl hch
    · exact Or.inr (Or.inr (Or.inr (Or.inl hst)))
    · rcases mem_all_entity_ids_iff.mp h2 with hE2 | hC2
      · rcases entities_to_copy_subset hE2 with hch | hst | hmem2 | haux2
        · exact Or.inl hch
        · exact Or.inr (Or.inr (Or.inr (Or.inr (Or.inl hst))))
        · exact absurd hmem2 (hdisj x hmem)
        · exact Or.inr (Or.inr (Or.inr (Or.inr (Or.inr (Or.inr haux2)))))
      · exact Or.inr (Or.inr (Or.inl hC2))
    · exact Or.inr (Or.inr (Or.inr (Or.inr (Or.inr (Or.inl haux)))))
  · exact Or.inr (Or.inl hC1)

/-- C9 witness: the amended theorem applied to the shared-material
store. -/
theorem C9_witness :
    5 ∈ ancestor_chain none none none ∨
    5 ∈ collect_closure storeShared 10
      ((entities_to_copy none none none 100 [10] mapsShared).insertionSort
        (· ≤ ·)) ∨
    5 ∈ collect_closure storeShared 10
      ((entities_to_copy none none none 200 [20] mapsShared).insertionSort
        (· ≤ ·)) ∨
    (5 : Nat) = 100 ∨ (5 : Nat) = 200 ∨
    5 ∈ aux_roots mapsShared [10] ∨ 5 ∈ aux_roots mapsShared [20] :=
  C9_shared_entities_characterized storeShared 10 none none none 100 200
    [10] [20] mapsShared (by decide) 5 (by decide) (by decide)

/-- C10: the closure computation never lets an attribute-reading
exception escape: the visited set only ever grows, and an entity whose
`get_info` raises is still recorded in the visited set while its
attributes contribute nothing — the call returns normally with the
truncated traversal. -/
theorem C10_exceptions_swallowed (s : Store) (fuel r : Nat)
    (v : List Nat) :
    (∀ x ∈ v, x ∈ collect_dependencies s fuel r v) ∧
    (∀ e, byId s r = some e → get_info_vals e = none → e.eid ∉ v →
      0 < fuel → collect_dependencies s fuel r v = e.eid :: v) := by
  refine ⟨fun x hx => cd_grow hx, ?_⟩
  intro e hby hinfo hnm hf
  obtain ⟨n, rfl⟩ : ∃ n, fuel = n + 1 := ⟨fuel - 1, by omega⟩
  rw [cd_succ hby hnm]
  have hsuccs : succs s e = [] := by unfold succs; rw [hinfo]
  rw [hsuccs]
  rfl

/-- C10 witness: entity 1 of `storeFail` has `get_info` raising; the
call returns `[1]` — entity recorded, reference unexplored, no
exception escapes. -/
theorem C10_witness : collect_dependencies storeFail 10 1 [] = [1] :=
  (C10_exceptions_swallowed storeFail 10 1 []).2
    ⟨1, nonRootTag, false, [AttrValue.ref 2]⟩ rfl rfl (by decide)
    (by decide)

end IfcSplit
